import Mathlib

/-
Verification of the one-dimensional Schelling segregation model
(schelling-go).  The repository holds two variants of the same program:
a serial one (lattice `[]float64`) and a parallel one (lattice `[]int`,
`type model []int`).  Both store only the agent types 0 and 1, so the
lattice is embedded as `List ℤ`; `float64` arithmetic on these small
integers is exact, and the `tolerance` float is modelled exactly as `ℚ`.
Functions shared verbatim by the two variants (`isHappy`, `isConverged`,
`move`, the trial loop) are embedded once; the two `countDistinct`
variants, which differ, live in the namespaces `Serial` and `Parallel`.
-/

namespace Schelling

/-- Lattices whose entries are the two agent types of the model. -/
abbrev binaryLattice (m : List ℤ) : Prop := ∀ v ∈ m, v = 0 ∨ v = 1

/-- Number of changes along the chain `v :: l`; proof-side normal form for
the single left-to-right scan that both `countDistinct` variants perform
(`val` starts at `model[0]` and is updated to each differing element, so it
always holds the previous element). -/
def transChain (v : ℤ) : List ℤ → ℤ
  | [] => 0
  | e :: rest => (if v ≠ e then 1 else 0) + transChain e rest

/-- Fold performed by both `countDistinct` variants:
state `(val, x)`, starting from `(model[0], 0)`, with
`if val != element { val = element; x++ }` applied to every element. -/
def distinctScan (m : List ℤ) : ℤ × ℤ :=
  m.foldl (fun (st : ℤ × ℤ) e => if st.1 ≠ e then (e, st.2 + 1) else st) (m.getD 0 0, 0)

namespace Serial

/-- Embedding of `countDistinct` from the serial variant
(`src/schelling.go` lines 152-170): scan for transitions, then
`if model[0] == model[len(model)-1] { x-- }`. -/
def countDistinct (m : List ℤ) : ℤ :=
  let x := (distinctScan m).2
  if m.getD 0 0 = m.getD (m.length - 1) 0 then x - 1 else x

end Serial

namespace Parallel

/-- Embedding of `countDistinct` from the parallel variant
(`src/schelling.go` lines 505-523): scan for transitions, then
`if model[0] != model[len(model)-1] { x++ }`. -/
def countDistinct (m : List ℤ) : ℤ :=
  let x := (distinctScan m).2
  if m.getD 0 0 ≠ m.getD (m.length - 1) 0 then x + 1 else x

end Parallel

/-- Claim-side definition, following the claim's words: the number of
adjacent index pairs (i, i+1) strictly inside the sequence whose types
differ. -/
def innerTransitions (m : List ℤ) : ℕ :=
  (List.range (m.length - 1)).countP (fun i => decide (m.getD i 0 ≠ m.getD (i + 1) 0))

/-- Claim-side definition, following the claim's words: boundaries =
transitions strictly inside the sequence, plus 1 if the first and last
elements differ, plus 0 if they are equal. -/
def specBoundaries (m : List ℤ) : ℤ :=
  (innerTransitions m : ℤ) + (if m.getD 0 0 ≠ m.getD (m.length - 1) 0 then 1 else 0)

/-- Alternating lattice b, 1-b, b, 1-b, ... of the given length, used to
state the spec's `0,1,0,1,...` example (`altFrom 0 n`). -/
def altFrom (b : ℤ) : ℕ → List ℤ
  | 0 => []
  | n + 1 => b :: altFrom (1 - b) n

@[simp]
lemma altFrom_length (b : ℤ) (n : ℕ) : (altFrom b n).length = n := by
  induction n generalizing b with
  | zero => rfl
  | succ n ih => simp [altFrom, ih]

lemma distinctScan_snd (l : List ℤ) : ∀ v x : ℤ,
    (l.foldl (fun (st : ℤ × ℤ) e => if st.1 ≠ e then (e, st.2 + 1) else st) (v, x)).2
      = x + transChain v l := by
  induction l with
  | nil => intro v x; simp [transChain]
  | cons e rest ih =>
    intro v x
    by_cases h : v = e
    · subst h
      simp only [List.foldl_cons, ne_eq, not_true_eq_false, if_neg, ite_self]
      rw [if_neg (by simp)]
      rw [ih]
      simp [transChain]
    · simp only [List.foldl_cons]
      rw [if_pos (by simpa using h)]
      rw [ih]
      simp only [transChain, if_pos (by simpa using h)]
      ring

lemma distinctScan_cons (a : ℤ) (l : List ℤ) :
    (distinctScan (a :: l)).2 = transChain a l := by
  unfold distinctScan
  simp only [List.getD_cons_zero, List.foldl_cons]
  rw [if_neg (by simp)]
  simpa using distinctScan_snd l a 0

lemma countDistinct_parallel_cons (a : ℤ) (l : List ℤ) :
    Parallel.countDistinct (a :: l)
      = (if a ≠ (a :: l).getD l.length 0 then transChain a l + 1 else transChain a l) := by
  unfold Parallel.countDistinct
  rw [distinctScan_cons]
  simp [List.getD_cons_zero]

lemma countDistinct_serial_cons (a : ℤ) (l : List ℤ) :
    Serial.countDistinct (a :: l)
      = (if a = (a :: l).getD l.length 0 then transChain a l - 1 else transChain a l) := by
  unfold Serial.countDistinct
  rw [distinctScan_cons]
  simp [List.getD_cons_zero]

lemma innerTransitions_cons (a : ℤ) (l : List ℤ) :
    (innerTransitions (a :: l) : ℤ) = transChain a l := by
  suffices h : ∀ (l : List ℤ) (a : ℤ),
      ((List.range l.length).countP
        (fun i => decide ((a :: l).getD i 0 ≠ (a :: l).getD (i + 1) 0)) : ℤ)
        = transChain a l by
    unfold innerTransitions
    simpa using h l a
  intro l
  induction l with
  | nil => intro a; simp [transChain]
  | cons b r ih =>
    intro a
    rw [show (b :: r).length = r.length + 1 from rfl, List.range_succ_eq_map]
    rw [List.countP_cons, List.countP_map]
    have hcomp : ((fun i => decide ((a :: b :: r).getD i 0 ≠ (a :: b :: r).getD (i + 1) 0)) ∘
        Nat.succ) = fun i => decide ((b :: r).getD i 0 ≠ (b :: r).getD (i + 1) 0) := by
      funext i
      simp [Function.comp, List.getD_cons_succ]
    rw [hcomp, show transChain a (b :: r) = (if a ≠ b then 1 else 0) + transChain b r from rfl]
    rw [← ih b]
    by_cases hab : a = b
    · subst hab
      simp
    · rw [if_pos (by simpa using hab)]
      simp only [List.getD_cons_succ, List.getD_cons_zero]
      rw [if_pos (by simpa using hab)]
      push_cast
      ring

lemma specBoundaries_cons (a : ℤ) (l : List ℤ) :
    specBoundaries (a :: l)
      = transChain a l + (if a ≠ (a :: l).getD l.length 0 then 1 else 0) := by
  unfold specBoundaries
  rw [innerTransitions_cons]
  simp [List.getD_cons_zero]

/-- C1: the parallel variant's `countDistinct` returns exactly the claimed
boundary count (internal transitions, plus one when the endpoints differ);
the serial variant instead returns one less, because its wrap-around branch
decrements the count when the endpoints are equal. -/
theorem countDistinct_eq_specBoundaries (m : List ℤ) (h1 : 1 ≤ m.length)
    (hbin : binaryLattice m) :
    Parallel.countDistinct m = specBoundaries m ∧
      Serial.countDistinct m = specBoundaries m - 1 := by
  cases m with
  | nil => simp at h1
  | cons a l =>
    rw [countDistinct_parallel_cons, countDistinct_serial_cons, specBoundaries_cons]
    by_cases h : a = (a :: l).getD l.length 0
    · rw [if_neg (by simpa using h), if_pos h, if_neg (by simpa using h)]
      ring_nf
      exact ⟨trivial, trivial⟩
    · rw [if_pos (by simpa using h), if_neg h, if_pos (by simpa using h)]
      constructor <;> ring

/-- C1 witness: the amended statement evaluated on the concrete lattice
`[0, 1]`. -/
theorem countDistinct_eq_specBoundaries_witness :
    (1 ≤ ([0, 1] : List ℤ).length ∧ binaryLattice [0, 1]) ∧
      (Parallel.countDistinct [0, 1] = specBoundaries [0, 1] ∧
        Serial.countDistinct [0, 1] = specBoundaries [0, 1] - 1) :=
  ⟨⟨by decide, by decide⟩, countDistinct_eq_specBoundaries [0, 1] (by decide) (by decide)⟩

/-- C1 counterexample: on the all-equal lattice `[0, 0]` the serial
variant's `countDistinct` returns -1, not the claimed boundary count 0. -/
theorem serial_countDistinct_ne_boundaries :
    Serial.countDistinct [0, 0] = -1 ∧ specBoundaries [0, 0] = 0 ∧
      Serial.countDistinct [0, 0] ≠ specBoundaries [0, 0] := by
  refine ⟨by decide, by decide, by decide⟩

lemma transChain_replicate (v : ℤ) (n : ℕ) :
    transChain v (List.replicate n v) = 0 := by
  induction n with
  | zero => rfl
  | succ n ih => simp [List.replicate_succ, transChain, ih]

lemma getD_replicate (v : ℤ) (n i : ℕ) (h : i < n) :
    (List.replicate n v).getD i 0 = v := by
  rw [List.getD_eq_getElem _ _ (by simpa using h)]
  exact List.getElem_replicate _ _

lemma transChain_altFrom (n : ℕ) : ∀ b : ℤ, b = 0 ∨ b = 1 →
    transChain (1 - b) (altFrom b n) = n := by
  induction n with
  | zero => intro b _; rfl
  | succ n ih =>
    intro b hb
    have hne : (1 - b) ≠ b := by rcases hb with h | h <;> subst h <;> decide
    have hb' : (1 - b) = 0 ∨ (1 - b) = 1 := by
      rcases hb with h | h <;> subst h <;> simp
    have hback : (1 - (1 - b)) = b := by ring
    simp only [altFrom, transChain, if_pos hne]
    rw [show transChain b (altFrom (1 - b) n) = transChain (1 - (1 - b)) (altFrom (1 - b) n) by
      rw [hback]]
    rw [ih (1 - b) hb']
    push_cast
    ring

lemma altFrom_getD (n : ℕ) : ∀ (b : ℤ) (i : ℕ), i < n →
    (altFrom b n).getD i 0 = if i % 2 = 0 then b else 1 - b := by
  induction n with
  | zero => intro b i h; omega
  | succ n ih =>
    intro b i h
    cases i with
    | zero => simp [altFrom]
    | succ i =>
      simp only [altFrom, List.getD_cons_succ]
      rw [ih (1 - b) i (by omega)]
      by_cases hp : i % 2 = 0
      · rw [if_pos hp, if_neg (by omega)]
      · rw [if_neg hp, if_pos (by omega)]
        ring

/-- C2: amended values. On an all-identical lattice of size at least 2 the
parallel `countDistinct` returns 0 and the serial one returns -1 (not 1);
on the alternating lattice 0,1,0,1,... of even size at least 4 the parallel
variant returns the size, the serial one the size minus 1. -/
theorem countDistinct_uniform_and_alternating :
    (∀ (n : ℕ) (v : ℤ), 2 ≤ n →
      Parallel.countDistinct (List.replicate n v) = 0 ∧
        Serial.countDistinct (List.replicate n v) = -1) ∧
    (∀ k : ℕ, 2 ≤ k →
      Parallel.countDistinct (altFrom 0 (2 * k)) = 2 * k ∧
        Serial.countDistinct (altFrom 0 (2 * k)) = 2 * k - 1) := by
  constructor
  · intro n v hn
    obtain ⟨n', rfl⟩ : ∃ n', n = n' + 1 := ⟨n - 1, by omega⟩
    rw [List.replicate_succ]
    rw [countDistinct_parallel_cons, countDistinct_serial_cons]
    simp only [List.length_replicate]
    have hlast : (v :: List.replicate n' v).getD n' 0 = v := by
      rw [show (v :: List.replicate n' v) = List.replicate (n' + 1) v from rfl]
      exact getD_replicate v (n' + 1) n' (by omega)
    rw [hlast, transChain_replicate]
    simp
  · intro k hk
    obtain ⟨j, hj⟩ : ∃ j, 2 * k = j + 1 := ⟨2 * k - 1, by omega⟩
    rw [hj]
    simp only [altFrom]
    rw [countDistinct_parallel_cons, countDistinct_serial_cons]
    have hlast : ((0 : ℤ) :: altFrom (1 - 0) j).getD (altFrom (1 - 0 : ℤ) j).length 0 = 1 := by
      rw [altFrom_length]
      cases j with
      | zero => exact absurd hj (by omega)
      | succ j' =>
        rw [List.getD_cons_succ]
        rw [altFrom_getD (j' + 1) (1 - 0) j' (by omega)]
        rw [if_pos (by omega)]
        norm_num
    rw [hlast]
    have htc : transChain (0 : ℤ) (altFrom (1 - 0) j) = j := by
      have h2 := transChain_altFrom j (1 - 0 : ℤ) (by norm_num)
      simpa using h2
    rw [htc]
    rw [if_pos (by norm_num), if_neg (by norm_num)]
    constructor <;> omega

/-- C2 witness: amended statement instantiated at the all-identical lattice
of size 2 and the alternating lattice of size 4. -/
theorem countDistinct_uniform_and_alternating_witness :
    (2 ≤ 2 ∧ Parallel.countDistinct (List.replicate 2 (0 : ℤ)) = 0) ∧
      (2 ≤ 2 ∧ Parallel.countDistinct (altFrom 0 (2 * 2)) = 2 * 2) :=
  ⟨⟨by decide, (countDistinct_uniform_and_alternating.1 2 0 (by decide)).1⟩,
    ⟨by decide, (countDistinct_uniform_and_alternating.2 2 (by decide)).1⟩⟩

/-- C2 counterexample: on the all-identical lattice `[0, 0]` (size 2)
neither variant of `countDistinct` returns 1: the parallel variant returns
0 and the serial variant returns -1. -/
theorem countDistinct_uniform_ne_one :
    Parallel.countDistinct [0, 0] = 0 ∧ Serial.countDistinct [0, 0] = -1 ∧
      Parallel.countDistinct [0, 0] ≠ 1 ∧ Serial.countDistinct [0, 0] ≠ 1 := by
  refine ⟨by decide, by decide, by decide, by decide⟩

/-- C10: on every non-empty binary lattice the parallel variant's
`countDistinct` returns exactly one more than the serial variant's. -/
theorem parallel_eq_serial_add_one (m : List ℤ) (h1 : 1 ≤ m.length)
    (hbin : binaryLattice m) :
    Parallel.countDistinct m = Serial.countDistinct m + 1 := by
  cases m with
  | nil => simp at h1
  | cons a l =>
    rw [countDistinct_parallel_cons, countDistinct_serial_cons]
    by_cases h : a = (a :: l).getD l.length 0
    · rw [if_neg (by simpa using h), if_pos h]
      ring
    · rw [if_pos (by simpa using h), if_neg h]

/-- C10 witness: the relation evaluated on the concrete lattice `[0, 1]`. -/
theorem parallel_eq_serial_add_one_witness :
    (1 ≤ ([0, 1] : List ℤ).length ∧ binaryLattice [0, 1]) ∧
      Parallel.countDistinct [0, 1] = Serial.countDistinct [0, 1] + 1 :=
  ⟨⟨by decide, by decide⟩, parallel_eq_serial_add_one [0, 1] (by decide) (by decide)⟩

/-- Circular index normalization plus lookup performed by `isHappy` for a
(possibly negative) offset position `k`: Go computes
`y := int(math.Mod(float64(k), float64(len(model))))` followed by
`if y < 0 then y += len(model)`, which for a positive length is exactly the
Euclidean remainder `k % len`. -/
def wrapGet (m : List ℤ) (k : ℤ) : ℤ :=
  m.getD (k % (m.length : ℤ)).toNat 0

/-- Count accumulated by the `for x := 1; x <= vision; x++` loop of
`isHappy`: the sum of the type values (0 or 1) of the two circularly
wrapped neighbors at `idx - x` and `idx + x` for each offset. -/
def neighborOnes (m : List ℤ) (idx : ℕ) : ℕ → ℤ
  | 0 => 0
  | d + 1 => neighborOnes m idx d + wrapGet m ((idx : ℤ) - (d + 1))
      + wrapGet m ((idx : ℤ) + (d + 1))

/-- Embedding of `isHappy` (identical in both variants, lines 195-223 and
548-576): accumulate the type-1 neighbor count over offsets 1..vision,
invert it (`count = 2*vision - count`) when the agent itself is type 0, and
return true iff the proportion `count / (2*vision)` is at least the
tolerance (the code returns false iff it is strictly below).  The `float64`
proportion is modelled exactly over `ℚ`. -/
def isHappy (m : List ℤ) (idx vision : ℕ) (tol : ℚ) : Bool :=
  decide (tol ≤ (((if m.getD idx 0 = 0 then 2 * (vision : ℤ) - neighborOnes m idx vision
    else neighborOnes m idx vision) : ℤ) : ℚ) / (2 * vision))

/-- Claim-side count, following the claim's words: among the `2 * vision`
circularly wrapped neighbors at `idx - d` and `idx + d` for `d` in
1..vision, how many have the given agent's type. -/
def sameCount (m : List ℤ) (idx : ℕ) (agent : ℤ) : ℕ → ℤ
  | 0 => 0
  | d + 1 => sameCount m idx agent d
      + (if wrapGet m ((idx : ℤ) - (d + 1)) = agent then 1 else 0)
      + (if wrapGet m ((idx : ℤ) + (d + 1)) = agent then 1 else 0)

/-- Claim-side happiness predicate: the fraction of same-type neighbors
among the `2 * vision` inspected ones is at least the tolerance. -/
def isHappySpec (m : List ℤ) (idx vision : ℕ) (tol : ℚ) : Bool :=
  decide (tol ≤ ((sameCount m idx (m.getD idx 0) vision : ℤ) : ℚ) / (2 * vision))

lemma wrapIdx_lt (m : List ℤ) (h : 0 < m.length) (k : ℤ) :
    (k % (m.length : ℤ)).toNat < m.length := by
  have hn : ((m.length : ℤ)) ≠ 0 := by
    simp only [ne_eq, Nat.cast_eq_zero]
    omega
  have h0 : 0 ≤ k % (m.length : ℤ) := Int.emod_nonneg k hn
  have h1 : k % (m.length : ℤ) < (m.length : ℤ) :=
    Int.emod_lt_of_pos k (by exact_mod_cast h)
  omega

lemma wrapGet_mem (m : List ℤ) (h : 0 < m.length) (k : ℤ) : wrapGet m k ∈ m := by
  unfold wrapGet
  rw [List.getD_eq_getElem _ _ (wrapIdx_lt m h k)]
  exact List.getElem_mem _

lemma sameCount_one (m : List ℤ) (idx : ℕ) (hbin : binaryLattice m)
    (h : 0 < m.length) : ∀ v : ℕ, sameCount m idx 1 v = neighborOnes m idx v := by
  intro v
  induction v with
  | zero => rfl
  | succ d ih =>
    simp only [sameCount, neighborOnes, ih]
    have h1 := hbin _ (wrapGet_mem m h ((idx : ℤ) - (d + 1)))
    have h2 := hbin _ (wrapGet_mem m h ((idx : ℤ) + (d + 1)))
    rcases h1 with e1 | e1 <;> rcases h2 with e2 | e2 <;> rw [e1, e2] <;> norm_num

lemma sameCount_zero (m : List ℤ) (idx : ℕ) (hbin : binaryLattice m)
    (h : 0 < m.length) :
    ∀ v : ℕ, sameCount m idx 0 v = 2 * (v : ℤ) - neighborOnes m idx v := by
  intro v
  induction v with
  | zero => simp [sameCount, neighborOnes]
  | succ d ih =>
    simp only [sameCount, neighborOnes, ih]
    have h1 := hbin _ (wrapGet_mem m h ((idx : ℤ) - (d + 1)))
    have h2 := hbin _ (wrapGet_mem m h ((idx : ℤ) + (d + 1)))
    rcases h1 with e1 | e1 <;> rcases h2 with e2 | e2 <;> rw [e1, e2] <;>
      · push_cast
        ring

/-- C4: for a binary lattice, a valid position, vision in [1, size) and
tolerance in (0, 1), `isHappy` computes exactly the claimed predicate: it
counts the `2 * vision` circularly wrapped same-type neighbors (via the
type-1 count, inverted when the agent is type 0) and reports happiness iff
that count over `2 * vision` is at least the tolerance. -/
theorem isHappy_eq_spec (m : List ℤ) (idx vision : ℕ) (tol : ℚ)
    (hbin : binaryLattice m) (hidx : idx < m.length) (hv : 1 ≤ vision)
    (hvs : vision < m.length) (ht0 : 0 < tol) (ht1 : tol < 1) :
    isHappy m idx vision tol = isHappySpec m idx vision tol := by
  have hpos : 0 < m.length := Nat.lt_of_le_of_lt (Nat.zero_le idx) hidx
  have hagent : m.getD idx 0 = 0 ∨ m.getD idx 0 = 1 := by
    rw [List.getD_eq_getElem _ _ hidx]
    exact hbin _ (List.getElem_mem hidx)
  unfold isHappy isHappySpec
  rcases hagent with h0 | h1
  · rw [h0, if_pos rfl, sameCount_zero m idx hbin hpos vision]
  · rw [h1, if_neg (by norm_num), sameCount_one m idx hbin hpos vision]

/-- C4 witness: the equivalence evaluated on the concrete lattice
`[0, 1, 0]` at position 0 with vision 1 and tolerance 1/2. -/
theorem isHappy_eq_spec_witness :
    (binaryLattice ([0, 1, 0] : List ℤ) ∧ 0 < ([0, 1, 0] : List ℤ).length ∧
      1 ≤ 1 ∧ 1 < ([0, 1, 0] : List ℤ).length ∧ (0 : ℚ) < 1/2 ∧ (1/2 : ℚ) < 1) ∧
      isHappy [0, 1, 0] 0 1 (1/2) = isHappySpec [0, 1, 0] 0 1 (1/2) :=
  ⟨⟨by decide, by decide, by decide, by decide, by norm_num, by norm_num⟩,
    isHappy_eq_spec [0, 1, 0] 0 1 (1/2) (by decide) (by decide) (by decide)
      (by decide) (by norm_num) (by norm_num)⟩

/-- Global swap of the two agent types, 0 to 1 and 1 to 0, applied at every
position (claim-side operation for the relabeling symmetry). -/
def swapTypes (m : List ℤ) : List ℤ := m.map (fun v => 1 - v)

lemma wrapGet_swapTypes (m : List ℤ) (h : 0 < m.length) (k : ℤ) :
    wrapGet (swapTypes m) k = 1 - wrapGet m k := by
  unfold wrapGet swapTypes
  rw [List.length_map]
  rw [List.getD_eq_getElem _ _ (by simpa using wrapIdx_lt m h k)]
  rw [List.getD_eq_getElem _ _ (wrapIdx_lt m h k)]
  rw [List.getElem_map]

lemma neighborOnes_swapTypes (m : List ℤ) (idx : ℕ) (h : 0 < m.length) :
    ∀ v : ℕ, neighborOnes (swapTypes m) idx v = 2 * (v : ℤ) - neighborOnes m idx v := by
  intro v
  induction v with
  | zero => simp [neighborOnes]
  | succ d ih =>
    simp only [neighborOnes, ih, wrapGet_swapTypes m h]
    push_cast
    ring

/-- C5: `isHappy` is invariant under swapping every agent's type: on a
binary lattice and a valid position it returns the same boolean on the
swapped lattice as on the original. -/
theorem isHappy_swap_invariant (m : List ℤ) (idx vision : ℕ) (tol : ℚ)
    (hbin : binaryLattice m) (hidx : idx < m.length) :
    isHappy (swapTypes m) idx vision tol = isHappy m idx vision tol := by
  have hpos : 0 < m.length := Nat.lt_of_le_of_lt (Nat.zero_le idx) hidx
  have hagent : (swapTypes m).getD idx 0 = 1 - m.getD idx 0 := by
    unfold swapTypes
    rw [List.getD_eq_getElem _ _ (by simpa using hidx)]
    rw [List.getD_eq_getElem _ _ hidx]
    rw [List.getElem_map]
  have hb : m.getD idx 0 = 0 ∨ m.getD idx 0 = 1 := by
    rw [List.getD_eq_getElem _ _ hidx]
    exact hbin _ (List.getElem_mem hidx)
  unfold isHappy
  rw [hagent, neighborOnes_swapTypes m idx hpos vision]
  rcases hb with h | h <;> rw [h]
  · rw [if_neg (by norm_num), if_pos rfl]
  · rw [if_pos (by norm_num), if_neg (by norm_num)]
    rw [show 2 * (vision : ℤ) - (2 * (vision : ℤ) - neighborOnes m idx vision)
      = neighborOnes m idx vision from by ring]

/-- C5 witness: the invariance evaluated on the concrete lattice
`[0, 1, 0]` at position 0 with vision 1 and tolerance 1/2. -/
theorem isHappy_swap_invariant_witness :
    (binaryLattice ([0, 1, 0] : List ℤ) ∧ 0 < ([0, 1, 0] : List ℤ).length) ∧
      isHappy (swapTypes [0, 1, 0]) 0 1 (1/2) = isHappy [0, 1, 0] 0 1 (1/2) :=
  ⟨⟨by decide, by decide⟩,
    isHappy_swap_invariant [0, 1, 0] 0 1 (1/2) (by decide) (by decide)⟩

/-- Embedding of the retry loop of `move` (identical in both variants,
lines 238-261 and 591-614).  Go state per iteration: capture
`val := model[idx]`, delete index `idx`, draw
`idx := rand.Intn(len(model))` on the one-shorter slice (modelled as
`stream tries % length`, which ranges over exactly the values `rand.Intn`
can return), reinsert `val` there, and re-check happiness; the loop guard
is `unhappy && tries < 2*len(model)` against the current length.  The
`fuel` argument makes the recursion structural: every full iteration keeps
the length unchanged, so `2 * length` fuel is exact, and the
fuel-exhausted-while-guard-true branch is unreachable from the states the
theorems consider.  `none` encodes the Go panics: indexing `model[idx]`
out of range, and `rand.Intn(0)` when the post-removal slice is empty. -/
def moveLoop (vision : ℕ) (tol : ℚ) (stream : ℕ → ℕ) :
    ℕ → List ℤ → ℕ → ℕ → Option (List ℤ × ℕ × ℕ)
  | 0, m, idx, tries =>
    if tries < 2 * m.length then none else some (m, idx, tries)
  | fuel + 1, m, idx, tries =>
    if tries < 2 * m.length then
      if idx < m.length then
        let val := m.getD idx 0
        let m' := m.eraseIdx idx
        if m'.length = 0 then none
        else
          let j := stream tries % m'.length
          let m'' := m'.insertIdx j val
          if isHappy m'' j vision tol then some (m'', j, tries + 1)
          else moveLoop vision tol stream fuel m'' j (tries + 1)
      else none
    else some (m, idx, tries)

/-- Embedding of `move`: run the retry loop from `tries = 0` with its
exact iteration budget.  On normal return it yields the final lattice, the
agent's final position and the number of iterations performed. -/
def move (m : List ℤ) (idx vision : ℕ) (tol : ℚ) (stream : ℕ → ℕ) :
    Option (List ℤ × ℕ × ℕ) :=
  moveLoop vision tol stream (2 * m.length) m idx 0

lemma moveLoop_spec (vision : ℕ) (tol : ℚ) (stream : ℕ → ℕ) :
    ∀ (fuel : ℕ) (m : List ℤ) (idx tries : ℕ) (res : List ℤ) (j t : ℕ),
      idx < m.length →
      moveLoop vision tol stream fuel m idx tries = some (res, j, t) →
      res.length = m.length ∧ j < res.length ∧ res.getD j 0 = m.getD idx 0 ∧
        res.eraseIdx j = m.eraseIdx idx ∧ tries ≤ t ∧ t ≤ max tries (2 * m.length) ∧
        (tries < 2 * m.length → tries < t) ∧
        (t < 2 * m.length → isHappy res j vision tol = true) := by
  intro fuel
  induction fuel with
  | zero =>
    intro m idx tries res j t hidx h
    simp only [moveLoop] at h
    by_cases hg : tries < 2 * m.length
    · rw [if_pos hg] at h
      exact absurd h (by simp)
    · rw [if_neg hg] at h
      rw [Option.some.injEq, Prod.mk.injEq, Prod.mk.injEq] at h
      obtain ⟨rfl, rfl, rfl⟩ := h
      exact ⟨rfl, hidx, rfl, rfl, le_refl _, le_max_left _ _,
        fun hc => absurd hc hg, fun hc => absurd (lt_of_le_of_lt (le_refl _) hc) hg⟩
  | succ fuel ih =>
    intro m idx tries res j t hidx h
    simp only [moveLoop] at h
    by_cases hg : tries < 2 * m.length
    · rw [if_pos hg, if_pos hidx] at h
      have hlen' : (m.eraseIdx idx).length = m.length - 1 := by
        rw [List.length_eraseIdx, if_pos hidx]
      by_cases h0 : (m.eraseIdx idx).length = 0
      · rw [if_pos h0] at h
        exact absurd h (by simp)
      · rw [if_neg h0] at h
        set jj := stream tries % (m.eraseIdx idx).length with hjj
        have hjlt : jj < (m.eraseIdx idx).length := Nat.mod_lt _ (by omega)
        have hlen'' : ((m.eraseIdx idx).insertIdx jj (m.getD idx 0)).length = m.length := by
          rw [List.length_insertIdx _ _ (le_of_lt hjlt)]
          omega
        have hget : ((m.eraseIdx idx).insertIdx jj (m.getD idx 0)).getD jj 0
            = m.getD idx 0 := by
          rw [List.getD_eq_getElem _ _ (by omega)]
          exact List.getElem_insertIdx_self _ _ _ (le_of_lt hjlt)
        have herase : ((m.eraseIdx idx).insertIdx jj (m.getD idx 0)).eraseIdx jj
            = m.eraseIdx idx := List.eraseIdx_insertIdx jj _
        by_cases hh : isHappy ((m.eraseIdx idx).insertIdx jj (m.getD idx 0)) jj vision tol
          = true
        · rw [if_pos hh] at h
          rw [Option.some.injEq, Prod.mk.injEq, Prod.mk.injEq] at h
          obtain ⟨rfl, rfl, rfl⟩ := h
          exact ⟨hlen'', by omega, hget, herase, by omega, by omega, by omega, fun _ => hh⟩
        · rw [if_neg hh] at h
          have hidx' : jj < ((m.eraseIdx idx).insertIdx jj (m.getD idx 0)).length := by
            omega
          obtain ⟨e1, e2, e3, e4, e5, e6, e7, e8⟩ := ih _ jj (tries + 1) res j t hidx' h
          refine ⟨by omega, e2, by rw [e3, hget], by rw [e4, herase], by omega, ?_,
            by omega, ?_⟩
          · rw [hlen''] at e6
            omega
          · intro hlt
            exact e8 (by omega)
    · rw [if_neg hg] at h
      rw [Option.some.injEq, Prod.mk.injEq, Prod.mk.injEq] at h
      obtain ⟨rfl, rfl, rfl⟩ := h
      exact ⟨rfl, hidx, rfl, rfl, le_refl _, le_max_left _ _,
        fun hc => absurd hc hg, fun hc => absurd hc hg⟩

lemma moveLoop_total (vision : ℕ) (tol : ℚ) (stream : ℕ → ℕ) :
    ∀ (fuel : ℕ) (m : List ℤ) (idx tries : ℕ),
      idx < m.length → 2 ≤ m.length → 2 * m.length ≤ tries + fuel →
      ∃ r, moveLoop vision tol stream fuel m idx tries = some r := by
  intro fuel
  induction fuel with
  | zero =>
    intro m idx tries hidx h2 hf
    simp only [moveLoop]
    rw [if_neg (by omega)]
    exact ⟨_, rfl⟩
  | succ fuel ih =>
    intro m idx tries hidx h2 hf
    simp only [moveLoop]
    by_cases hg : tries < 2 * m.length
    · rw [if_pos hg, if_pos hidx]
      have hlen' : (m.eraseIdx idx).length = m.length - 1 := by
        rw [List.length_eraseIdx, if_pos hidx]
      rw [if_neg (show ¬(m.eraseIdx idx).length = 0 by omega)]
      set jj := stream tries % (m.eraseIdx idx).length with hjj
      have hjlt : jj < (m.eraseIdx idx).length := Nat.mod_lt _ (by omega)
      have hlen'' : ((m.eraseIdx idx).insertIdx jj (m.getD idx 0)).length = m.length := by
        rw [List.length_insertIdx _ _ (le_of_lt hjlt)]
        omega
      by_cases hh : isHappy ((m.eraseIdx idx).insertIdx jj (m.getD idx 0)) jj vision tol
        = true
      · rw [if_pos hh]
        exact ⟨_, rfl⟩
      · rw [if_neg hh]
        exact ih _ jj (tries + 1) (by omega) (by omega) (by omega)
    · rw [if_neg hg]
      exact ⟨_, rfl⟩

/-- C6: whenever `move` returns (it always does for lattices of length at
least 2, and its in-place splices alias the caller's array, so the caller
observes this result), the lattice length is unchanged, the moved agent
sits at the returned position with its original type, and removing it
there yields exactly the original lattice with the original position
removed: every other element keeps its relative order. -/
theorem move_relocates_one (m : List ℤ) (idx vision : ℕ) (tol : ℚ) (stream : ℕ → ℕ)
    (res : List ℤ) (j t : ℕ) (hidx : idx < m.length)
    (h : move m idx vision tol stream = some (res, j, t)) :
    res.length = m.length ∧ j < res.length ∧ res.getD j 0 = m.getD idx 0 ∧
      res.eraseIdx j = m.eraseIdx idx := by
  obtain ⟨e1, e2, e3, e4, _, _, _, _⟩ :=
    moveLoop_spec vision tol stream (2 * m.length) m idx 0 res j t hidx h
  exact ⟨e1, e2, e3, e4⟩

/-- C6 witness: `move` on the lattice `[0, 1]` at position 0 with vision 1,
tolerance 1/2 and an all-zero random stream returns `([0, 1], 0, 4)`, and
the conclusions hold there. -/
theorem move_relocates_one_witness :
    (0 < ([0, 1] : List ℤ).length) ∧
      (([0, 1] : List ℤ).length = ([0, 1] : List ℤ).length ∧
        0 < ([0, 1] : List ℤ).length ∧
        ([0, 1] : List ℤ).getD 0 0 = ([0, 1] : List ℤ).getD 0 0 ∧
        ([0, 1] : List ℤ).eraseIdx 0 = ([0, 1] : List ℤ).eraseIdx 0) :=
  ⟨by decide, move_relocates_one [0, 1] 0 1 (1/2) (fun _ => 0) [0, 1] 0 4 (by decide)
    (by with_unfolding_all decide)⟩

/-- C8: amended to lattices of length at least 2.  There `move` performs at
most `2 * length` remove-and-reinsert iterations, returns normally even
when every placement leaves the agent unhappy, and any early exit (fewer
than `2 * length` iterations) happens only because the tried placement made
the agent happy. -/
theorem move_bounded_terminates (m : List ℤ) (idx vision : ℕ) (tol : ℚ)
    (stream : ℕ → ℕ) (h2 : 2 ≤ m.length) (hidx : idx < m.length) :
    ∃ (res : List ℤ) (j t : ℕ), move m idx vision tol stream = some (res, j, t) ∧
      1 ≤ t ∧ t ≤ 2 * m.length ∧
      (t < 2 * m.length → isHappy res j vision tol = true) := by
  obtain ⟨⟨res, j, t⟩, hr⟩ :=
    moveLoop_total vision tol stream (2 * m.length) m idx 0 hidx h2 (by omega)
  obtain ⟨_, _, _, _, _, e6, e7, e8⟩ :=
    moveLoop_spec vision tol stream (2 * m.length) m idx 0 res j t hidx hr
  have h1t : 1 ≤ t := e7 (by omega)
  exact ⟨res, j, t, hr, h1t, by omega, e8⟩

/-- C8 counterexample: on a lattice of length 1 (allowed by the claim,
which quantifies over lengths at least 1) the very first iteration deletes
the only element and calls `rand.Intn(0)`, which panics in Go; the
embedding returns `none` instead of a normal result. -/
theorem move_singleton_panics :
    move [0] 0 1 (1/2) (fun _ => 0) = none := by
  rfl

/-- C8 witness: the amended statement instantiated on the lattice `[0, 1]`
at position 0 with vision 1, tolerance 1/2 and an all-zero stream. -/
theorem move_bounded_terminates_witness :
    (2 ≤ ([0, 1] : List ℤ).length ∧ 0 < ([0, 1] : List ℤ).length) ∧
      (∃ (res : List ℤ) (j t : ℕ),
        move [0, 1] 0 1 (1/2) (fun _ => 0) = some (res, j, t) ∧
        1 ≤ t ∧ t ≤ 2 * ([0, 1] : List ℤ).length ∧
        (t < 2 * ([0, 1] : List ℤ).length → isHappy res j 1 (1/2) = true)) :=
  ⟨⟨by decide, by decide⟩,
    move_bounded_terminates [0, 1] 0 1 (1/2) (fun _ => 0) (by decide) (by decide)⟩

/-- Embedding of `isConverged` (identical in both variants): true iff
every position of the lattice is happy. -/
def isConverged (m : List ℤ) (vision : ℕ) (tol : ℚ) : Bool :=
  (List.range m.length).all (fun idx => isHappy m idx vision tol)

/-- Result record of one trial; the fields of `modelRun` that the trial
loop assigns (`initGroups`, `finalGroups`, `ticks`; the echoed
configuration fields carry no information). -/
structure TrialResult where
  initGroups : ℤ
  finalGroups : ℤ
  ticks : ℤ

/-- Embedding of the trial loop of `executeModel` (lines 467-479; the
serial `aggregateRuns` has the identical loop at lines 103-112):
`for !isConverged(model) { step(model); ticks++; if ticks > 500*len(model)
break }`.  The per-tick lattice update `step` (which resamples random
indices until it hits an unhappy agent, an unbounded randomized search) is
abstracted as the parameter `next`, applied to the current tick count and
lattice; every lattice update in the source preserves the length, so the
budget `500 * len` is a fixed number.  The structural `fuel` is exact: the
loop body runs at most `budget + 1` times because the tick counter breaks
the loop as soon as it exceeds `budget`, so with `fuel = budget + 1` the
zero-fuel base case is reached only with the guard already false. -/
def trialLoop (vision : ℕ) (tol : ℚ) (next : ℕ → List ℤ → List ℤ) (budget : ℕ) :
    ℕ → List ℤ → ℕ → List ℤ × ℕ
  | 0, m, ticks => (m, ticks)
  | fuel + 1, m, ticks =>
    if isConverged m vision tol then (m, ticks)
    else
      if budget < ticks + 1 then (next ticks m, ticks + 1)
      else trialLoop vision tol next budget fuel (next ticks m) (ticks + 1)

/-- Final lattice and tick count of one trial: the loop run from tick 0
with budget `500 * size` and exact fuel. -/
def trialFinal (vision : ℕ) (tol : ℚ) (next : ℕ → List ℤ → List ℤ)
    (init : List ℤ) : List ℤ × ℕ :=
  trialLoop vision tol next (500 * init.length) (500 * init.length + 1) init 0

/-- Embedding of the result assembly of `executeModel` (lines 445-503):
`finalGroups` and `ticks` start at the sentinel -1 and are overwritten with
`countDistinct(model)` and the tick counter only when the post-loop
`isConverged` check succeeds. -/
def executeModel (vision : ℕ) (tol : ℚ) (next : ℕ → List ℤ → List ℤ)
    (init : List ℤ) : TrialResult :=
  let r := trialFinal vision tol next init
  let success := isConverged r.1 vision tol
  { initGroups := Parallel.countDistinct init
    finalGroups := if success then Parallel.countDistinct r.1 else -1
    ticks := if success then (r.2 : ℤ) else -1 }

lemma executeModel_ticks (vision : ℕ) (tol : ℚ) (next : ℕ → List ℤ → List ℤ)
    (init : List ℤ) :
    (executeModel vision tol next init).ticks =
      (if isConverged (trialFinal vision tol next init).1 vision tol
        then ((trialFinal vision tol next init).2 : ℤ) else -1) := rfl

lemma executeModel_finalGroups (vision : ℕ) (tol : ℚ)
    (next : ℕ → List ℤ → List ℤ) (init : List ℤ) :
    (executeModel vision tol next init).finalGroups =
      (if isConverged (trialFinal vision tol next init).1 vision tol
        then Parallel.countDistinct (trialFinal vision tol next init).1 else -1) := rfl

lemma trialLoop_exit (vision : ℕ) (tol : ℚ) (next : ℕ → List ℤ → List ℤ)
    (budget : ℕ) :
    ∀ (fuel : ℕ) (m : List ℤ) (ticks : ℕ), budget + 1 ≤ ticks + fuel →
      isConverged (trialLoop vision tol next budget fuel m ticks).1 vision tol = true ∨
        budget < (trialLoop vision tol next budget fuel m ticks).2 := by
  intro fuel
  induction fuel with
  | zero =>
    intro m ticks hb
    simp only [trialLoop]
    right
    omega
  | succ fuel ih =>
    intro m ticks hb
    simp only [trialLoop]
    by_cases hc : isConverged m vision tol = true
    · rw [if_pos hc]
      left
      exact hc
    · rw [if_neg hc]
      by_cases ht : budget < ticks + 1
      · rw [if_pos ht]
        right
        exact ht
      · rw [if_neg ht]
        exact ih (next ticks m) (ticks + 1) (by omega)

/-- C7: a trial's `ticks` field is -1 iff the loop exceeded the
`500 * size` tick budget while the final lattice still has an unhappy
position; on convergence `ticks` holds the elapsed tick count and
`finalGroups` holds `countDistinct` of the final lattice, and in the
non-convergent case both fields keep the sentinel -1 with no
recomputation. -/
theorem executeModel_ticks_sentinel (vision : ℕ) (tol : ℚ)
    (next : ℕ → List ℤ → List ℤ) (init : List ℤ) :
    ((executeModel vision tol next init).ticks = -1 ↔
      (500 * init.length < (trialFinal vision tol next init).2 ∧
        isConverged (trialFinal vision tol next init).1 vision tol = false)) ∧
      (isConverged (trialFinal vision tol next init).1 vision tol = true →
        (executeModel vision tol next init).ticks
            = ((trialFinal vision tol next init).2 : ℤ) ∧
          (executeModel vision tol next init).finalGroups
            = Parallel.countDistinct (trialFinal vision tol next init).1) ∧
      (isConverged (trialFinal vision tol next init).1 vision tol = false →
        (executeModel vision tol next init).ticks = -1 ∧
          (executeModel vision tol next init).finalGroups = -1) := by
  have hexit := trialLoop_exit vision tol next (500 * init.length)
    (500 * init.length + 1) init 0 (by omega)
  have hfd : trialFinal vision tol next init
      = trialLoop vision tol next (500 * init.length) (500 * init.length + 1) init 0 :=
    rfl
  rw [← hfd] at hexit
  by_cases hs : isConverged (trialFinal vision tol next init).1 vision tol = true
  · refine ⟨?_, fun _ => ⟨?_, ?_⟩, fun hf => absurd hs (by simp [hf])⟩
    · rw [executeModel_ticks, if_pos hs]
      constructor
      · intro habs
        exfalso
        omega
      · rintro ⟨_, h2⟩
        rw [hs] at h2
        exact absurd h2 (by simp)
    · rw [executeModel_ticks, if_pos hs]
    · rw [executeModel_finalGroups, if_pos hs]
  · have hgt : 500 * init.length < (trialFinal vision tol next init).2 := by
      rcases hexit with h | h
      · exact absurd h hs
      · exact h
    refine ⟨?_, fun ht => absurd ht hs, fun _ => ⟨?_, ?_⟩⟩
    · rw [executeModel_ticks, if_neg hs]
      constructor
      · intro _
        exact ⟨hgt, by simpa using hs⟩
      · intro _
        rfl
    · rw [executeModel_ticks, if_neg hs]
    · rw [executeModel_finalGroups, if_neg hs]

/-- C7 witness: the convergence clause evaluated on the already-converged
single-agent lattice `[0]` with vision 1 and tolerance 1/2. -/
theorem executeModel_ticks_sentinel_witness :
    (executeModel 1 (1/2) (fun _ m => m) [0]).ticks
        = ((trialFinal 1 (1/2) (fun _ m => m) [0]).2 : ℤ) ∧
      (executeModel 1 (1/2) (fun _ m => m) [0]).finalGroups
        = Parallel.countDistinct (trialFinal 1 (1/2) (fun _ m => m) [0]).1 :=
  (executeModel_ticks_sentinel 1 (1/2) (fun _ m => m) [0]).2.1
    (by with_unfolding_all decide)

/-- Embedding of the input validation in `main` (parallel variant, lines
633-663; the serial variant performs the same numeric checks): the
configuration reaches `aggregateRuns` iff every check passes, and each
failing check prints a message and exits with a non-zero status before any
trial runs.  Flags: `-s` numAgents, `-n` numRuns, `-w` vision, `-t`
tolerance, `-v` verbose, `-p` parallel. -/
def validArgs (numAgents numRuns vision : ℤ) (tolerance : ℚ)
    (verbose parallel : Bool) : Bool :=
  decide (0 < numAgents) && decide (0 < numRuns) && decide (0 < vision) &&
    decide (0 < tolerance) && decide (tolerance < 1) &&
    decide (vision ≤ numAgents) && !(verbose && parallel)

/-- C3: amended.  Validation rejects a configuration for its vision only
when `vision > numAgents`, so every configuration that passes satisfies
`vision <= size`; the boundary case `vision == size` is accepted, not
rejected as the claim states. -/
theorem validArgs_vision_le (numAgents numRuns vision : ℤ) (tolerance : ℚ)
    (verbose parallel : Bool) :
    (numAgents < vision →
      validArgs numAgents numRuns vision tolerance verbose parallel = false) ∧
    (validArgs numAgents numRuns vision tolerance verbose parallel = true →
      vision ≤ numAgents) := by
  have key : validArgs numAgents numRuns vision tolerance verbose parallel = true →
      vision ≤ numAgents := by
    intro h
    unfold validArgs at h
    simp only [Bool.and_eq_true, decide_eq_true_eq] at h
    exact h.1.2
  refine ⟨?_, key⟩
  intro h
  rcases Bool.eq_false_or_eq_true
    (validArgs numAgents numRuns vision tolerance verbose parallel) with hb | hb
  · exact absurd (key hb) (by omega)
  · exact hb

/-- C3 counterexample: the configuration with 3 agents, 1 run, vision 3 and
tolerance 1/2 satisfies `vision >= size` yet passes validation, because the
code only rejects `vision > numAgents`. -/
theorem validArgs_vision_eq_size_passes :
    validArgs 3 1 3 (1/2) false true = true ∧ ¬((3 : ℤ) < 3) :=
  ⟨by with_unfolding_all decide, by decide⟩

/-- C3 witness: a configuration with vision 3 strictly above size 2 is
rejected. -/
theorem validArgs_vision_le_witness :
    ((2 : ℤ) < 3) ∧ validArgs 2 1 3 (1/2) false true = false :=
  ⟨by decide, (validArgs_vision_le 2 1 3 (1/2) false true).1 (by decide)⟩

/-- Embedding of the run-dispatch loop of `aggregateRuns` (parallel
variant lines 410-426; serial variant lines 84-132):
`for run := 0; run < numRuns; run++` invokes `executeModel(run, size)`
exactly once per index, inline when serial and on a fresh goroutine per
run when parallel.  This is the list of run indices that execute; no
worker count is involved anywhere in the dispatch. -/
def dispatchedRuns (numRuns : ℕ) : List ℕ := List.range numRuns

/-- Claim-side definition following the spec's words: partitioning the
trials into workerCount equal chunks of `numRuns / workerCount` (integer
division) would execute `workerCount * (numRuns / workerCount)` trials. -/
def chunkedTrialCount (numRuns workerCount : ℕ) : ℕ :=
  workerCount * (numRuns / workerCount)

/-- C9: amended.  The batch path performs no chunking at all: it
dispatches exactly one trial per run index `0 .. numRuns - 1` regardless
of any worker count, so exactly `numRuns` trials execute, which is
strictly more than the claimed `workerCount * (numRuns / workerCount)`
whenever the worker count does not divide `numRuns`; no trials are
dropped. -/
theorem dispatchedRuns_complete (numRuns workerCount : ℕ)
    (hw : 0 < workerCount) (hnd : ¬ workerCount ∣ numRuns) :
    (dispatchedRuns numRuns).length = numRuns ∧
      chunkedTrialCount numRuns workerCount < numRuns := by
  constructor
  · exact List.length_range numRuns
  · have hle : workerCount * (numRuns / workerCount) ≤ numRuns :=
      Nat.mul_div_le numRuns workerCount
    have hne : workerCount * (numRuns / workerCount) ≠ numRuns := fun h => hnd ⟨_, h.symm⟩
    unfold chunkedTrialCount
    omega

/-- C9 witness: the amended statement instantiated at 5 runs and worker
count 2. -/
theorem dispatchedRuns_complete_witness :
    (0 < 2 ∧ ¬(2 ∣ 5)) ∧
      ((dispatchedRuns 5).length = 5 ∧ chunkedTrialCount 5 2 < 5) :=
  ⟨⟨by decide, by decide⟩, dispatchedRuns_complete 5 2 (by decide) (by decide)⟩

/-- C9 counterexample: with 5 runs and worker count 2 the code dispatches
5 trials while the claimed chunked partition would execute only
2 * (5 / 2) = 4. -/
theorem dispatched_ne_chunked :
    (dispatchedRuns 5).length = 5 ∧ chunkedTrialCount 5 2 = 4 ∧
      (dispatchedRuns 5).length ≠ chunkedTrialCount 5 2 :=
  ⟨by decide, by decide, by decide⟩

end Schelling
